import Mathlib

/-!
Verification development for the addon package installation pipeline of
`ayon_server/installer/addons.py`.

The development shallowly embeds the installer module:

* semantic versions and the `semver.compare` ordering used by the
  compatibility gate (the `semver` library is an external dependency; the
  embedding follows its documented precedence rules: major/minor/patch
  compared numerically, then prerelease identifiers, a release version
  being greater than any of its prereleases; build metadata, which the
  comparison ignores, is omitted);
* the manifest parsers `get_addon_info_from_manifest`,
  `get_addon_info_from_package_yaml`, `get_addon_info_from_package_py`
  and the selection loop plus compatibility check of `get_addon_zip_info`;
* a finite-map filesystem model over which `unpack_addon_sync`,
  `unpack_addon` and `install_addon_from_url` are embedded, with the
  event store (`update_event`) modelled as an emitted trace of updates.
-/

namespace AyonInstaller

/-! ## Semantic versions and the semver comparison -/

/-- A prerelease identifier: numeric (all digits) or alphanumeric, as the
`semver` library classifies the dot-separated components of the
prerelease part. -/
inductive PreId where
  | num (n : Nat)
  | alpha (s : List Char)
deriving DecidableEq

/-- Three-way comparison of naturals (the integer comparison used by
`semver` for major/minor/patch and numeric prerelease identifiers). -/
def ncmp (a b : Nat) : Ordering :=
  if a < b then .lt else if b < a then .gt else .eq

/-- Character comparison by code point, as Python string comparison does. -/
def ccmp (a b : Char) : Ordering :=
  ncmp a.toNat b.toNat

/-- Lexicographic comparison of character lists (Python `str` comparison
restricted to the ASCII identifiers appearing in version strings). -/
def lcmp : List Char → List Char → Ordering
  | [], [] => .eq
  | [], _ :: _ => .lt
  | _ :: _, [] => .gt
  | a :: as, b :: bs =>
    match ccmp a b with
    | .eq => lcmp as bs
    | o => o

/-- Comparison of single prerelease identifiers: numeric identifiers
compare numerically and are always lower than alphanumeric ones, which
compare lexicographically. -/
def pidCmp : PreId → PreId → Ordering
  | .num a, .num b => ncmp a b
  | .num _, .alpha _ => .lt
  | .alpha _, .num _ => .gt
  | .alpha a, .alpha b => lcmp a b

/-- Comparison of prerelease identifier lists: element-wise, a strict
prefix being lower. -/
def preCmp : List PreId → List PreId → Ordering
  | [], [] => .eq
  | [], _ :: _ => .lt
  | _ :: _, [] => .gt
  | a :: as, b :: bs =>
    match pidCmp a b with
    | .eq => preCmp as bs
    | o => o

/-- A parsed semantic version as the `semver` library represents it for
comparison purposes (build metadata omitted: it does not participate in
precedence). -/
structure SemVer where
  major : Nat
  minor : Nat
  patch : Nat
  prerelease : List PreId := []
deriving DecidableEq

/-- `semver.compare a b`: major, minor, patch numerically; then a version
with a prerelease is lower than the same version without one; two
prereleases compare by `preCmp`.  Python returns -1/0/1, rendered here as
`Ordering.lt`/`.eq`/`.gt`. -/
def svCompare (a b : SemVer) : Ordering :=
  match ncmp a.major b.major with
  | .eq =>
    match ncmp a.minor b.minor with
    | .eq =>
      match ncmp a.patch b.patch with
      | .eq =>
        match a.prerelease, b.prerelease with
        | [], [] => .eq
        | [], _ :: _ => .gt
        | _ :: _, [] => .lt
        | x, y => preCmp x y
      | o => o
    | o => o
  | o => o

/-- The semantic-version order relation induced by the comparison. -/
def svLe (a b : SemVer) : Prop := svCompare a b ≠ .gt

/-- The strict semantic-version order relation. -/
def svLt (a b : SemVer) : Prop := svCompare a b = .lt

instance (a b : SemVer) : Decidable (svLe a b) := by
  unfold svLe; infer_instance

instance (a b : SemVer) : Decidable (svLt a b) := by
  unfold svLt; infer_instance

/-- Version literal 1.0.0 (the JSON manifest's fixed lower bound). -/
def v100 : SemVer := { major := 1, minor := 0, patch := 0 }

/-- Version literal 1.0.3 (the rez-style manifests' fixed lower bound). -/
def v103 : SemVer := { major := 1, minor := 0, patch := 3 }

/-- Version literal 1.2.0 (the JSON manifest's fixed upper bound). -/
def v120 : SemVer := { major := 1, minor := 2, patch := 0 }

/-! ## Errors and the addon descriptor -/

/-- The exceptions that can arise in the installer module.
`unsupported` is `UnsupportedAddonException`; `validationError` is
pydantic's `ValidationError` (raised when a required `str` field receives
`None`); `jsonDecodeError` and `yamlError` are the respective library
parse failures; `badZipFile` is `zipfile.BadZipFile`; `fsError` is an
`OSError`-family failure from `shutil`/`os`. -/
inductive InstallError where
  | unsupported (msg : String)
  | validationError
  | jsonDecodeError
  | yamlError
  | badZipFile
  | fsError (msg : String)
deriving DecidableEq

/-- Rendering of an error as the human-readable text interpolated into
event descriptions. -/
def errMsg : InstallError → String
  | .unsupported m => m
  | .validationError => "validation error"
  | .jsonDecodeError => "json decode error"
  | .yamlError => "yaml error"
  | .badZipFile => "bad zip file"
  | .fsError m => m

/-- `AddonZipInfo`: the descriptor extracted from a manifest.  The
`min`/`max` bounds are stored as parsed semantic versions (the source
keeps the strings and parses them inside `semver.compare`; the parsers
only ever store valid version literals there). -/
structure AddonZipInfo where
  name : String
  version : String
  min_ayon_version : SemVer
  max_ayon_version : Option SemVer := none
  is_rez : Bool := false
deriving DecidableEq

/-! ## The compatibility gate

The tail of `get_addon_zip_info`: raise if
`semver.compare(ayon_version, zip_info.min_ayon_version) < 0`, then raise
if a max bound is set and `semver.compare(ayon_version, max) >= 0`. -/

/-- The compatibility gate of `get_addon_zip_info`, factored over the
running platform version (the source reads the module-level
`ayon_version`). -/
def checkCompat (ayonVer : SemVer) (zi : AddonZipInfo) :
    Except InstallError AddonZipInfo :=
  if svCompare ayonVer zi.min_ayon_version = .lt then
    .error (.unsupported "Ayon version is not supported by this addon")
  else
    match zi.max_ayon_version with
    | some mx =>
      if svCompare ayonVer mx = .lt then .ok zi
      else .error (.unsupported "Ayon version is not supported by this addon")
    | none => .ok zi

/-! ## Textual manifest parsing

`json.loads` / `yaml.safe_load` are external library calls; they are
embedded here on the fragment the manifests use: flat objects with string
keys and string values (escape sequences unsupported — inputs outside the
fragment are parse failures).  The `package.py` regex extraction is
embedded in full. -/

/-- JSON whitespace. -/
def isWsChar (c : Char) : Bool :=
  c == ' ' || c == '\t' || c == '\n' || c == '\r'

/-- Drop leading whitespace. -/
def skipWs (cs : List Char) : List Char := cs.dropWhile isWsChar

/-- The opening-brace character. -/
def lbrace : Char := Char.ofNat 123

/-- The closing-brace character. -/
def rbrace : Char := Char.ofNat 125

/-- Parse a JSON string literal (no escape sequences), returning the
content and the remaining input. -/
def parseJStr : List Char → Option (String × List Char)
  | c :: rest =>
    if c == '"' then
      let content := rest.takeWhile (fun d => !(d == '"') && !(d == '\\'))
      match rest.drop content.length with
      | d :: rest2 => if d == '"' then some (String.mk content, rest2) else none
      | [] => none
    else none
  | [] => none

/-- Parse a nonempty comma-separated sequence of `"key": "value"` pairs.
The fuel argument bounds recursion depth; callers pass the input length,
which suffices since each pair consumes at least one character. -/
def parseJPairs : Nat → List Char → Option (List (String × String) × List Char)
  | 0, _ => none
  | fuel + 1, cs =>
    match parseJStr (skipWs cs) with
    | none => none
    | some (k, cs1) =>
      match skipWs cs1 with
      | c :: cs2 =>
        if c == ':' then
          match parseJStr (skipWs cs2) with
          | none => none
          | some (v, cs3) =>
            match skipWs cs3 with
            | d :: cs4 =>
              if d == ',' then
                match parseJPairs fuel cs4 with
                | some (ps, r) => some ((k, v) :: ps, r)
                | none => none
              else some ([(k, v)], d :: cs4)
            | [] => some ([(k, v)], [])
        else none
      | [] => none

/-- `json.loads` on the flat string-object fragment.  Returns the fields
in textual order. -/
def parseJsonObj (s : String) : Option (List (String × String)) :=
  match skipWs s.toList with
  | c :: cs =>
    if c == lbrace then
      match skipWs cs with
      | d :: cs2 =>
        if d == rbrace then (if (skipWs cs2).isEmpty then some [] else none)
        else
          match parseJPairs (s.length + 1) (d :: cs2) with
          | some (ps, r) =>
            match skipWs r with
            | e :: r2 =>
              if e == rbrace then (if (skipWs r2).isEmpty then some ps else none)
              else none
            | [] => none
          | none => none
      | [] => none
    else none
  | [] => none

/-- `dict.get`: a Python dict built from a key-value sequence keeps the
last value for a duplicated key. -/
def mget (m : List (String × String)) (k : String) : Option String :=
  m.foldl (fun acc e => if e.1 = k then some e.2 else acc) none

/-- Python truthiness of an optional string: `None` and the empty string
are falsy. -/
def truthy : Option String → Bool
  | none => false
  | some s => !(s == "")

/-- `get_addon_info_from_manifest`: the JSON manifest parser.  It tests
the truthiness of the `addon_name`/`addon_version` fields, then builds
the descriptor from the `name`/`version` fields, with the fixed bounds
1.0.0 (inclusive) and 1.2.0 (exclusive).  A missing `name`/`version`
surfaces as a pydantic validation error. -/
def get_addon_info_from_manifest (manifest_data : String) :
    Except InstallError AddonZipInfo :=
  match parseJsonObj manifest_data with
  | none => .error .jsonDecodeError
  | some manifest =>
    if truthy (mget manifest "addon_name") && truthy (mget manifest "addon_version") then
      match mget manifest "name", mget manifest "version" with
      | some n, some v =>
        .ok { name := n, version := v, min_ayon_version := v100,
              max_ayon_version := some v120 }
      | _, _ => .error .validationError
    else
      .error (.unsupported "Addon name or version not found in manifest")

/-- Split one `key: value` line at the first colon and trim both sides. -/
def parseYamlLine (l : String) : Option (String × String) :=
  let cs := l.toList
  let key := cs.takeWhile (fun c => !(c == ':'))
  match cs.drop key.length with
  | _ :: rest => some ((String.mk key).trim, (String.mk rest).trim)
  | [] => none

/-- `yaml.safe_load` on the flat string-mapping fragment: one
`key: value` pair per nonempty line. -/
def parseYamlObj (s : String) : Option (List (String × String)) :=
  let ls := (s.splitOn "\n").filter (fun l => !(l.trim == ""))
  ls.foldr
    (fun l acc =>
      match parseYamlLine l, acc with
      | some p, some ps => some (p :: ps)
      | _, _ => none)
    (some [])

/-- `get_addon_info_from_package_yaml`: the YAML package parser; checks
truthiness of `name` and `version` and yields a rez-style descriptor with
lower bound 1.0.3 and no upper bound. -/
def get_addon_info_from_package_yaml (manifest_data : String) :
    Except InstallError AddonZipInfo :=
  match parseYamlObj manifest_data with
  | none => .error .yamlError
  | some manifest =>
    if truthy (mget manifest "name") && truthy (mget manifest "version") then
      match mget manifest "name", mget manifest "version" with
      | some n, some v =>
        .ok { name := n, version := v, min_ayon_version := v103, is_rez := true }
      | _, _ => .error (.unsupported "Addon name or version not found in package.yaml")
    else
      .error (.unsupported "Addon name or version not found in package.yaml")

/-- Python `\s` whitespace. -/
def isPyWs (c : Char) : Bool :=
  c == ' ' || c == '\t' || c == '\n' || c == '\r' ||
  c == Char.ofNat 11 || c == Char.ofNat 12

/-- Match a literal character sequence at the head of the input,
returning the rest. -/
def litPfx : List Char → List Char → Option (List Char)
  | [], cs => some cs
  | _ :: _, [] => none
  | k :: ks, c :: cs => if c == k then litPfx ks cs else none

/-- Try to match `key\s*=\s*"([^"]+)"` anchored at the start of the
input, returning the captured group. -/
def matchAssignAt (key : List Char) (cs : List Char) : Option String :=
  match litPfx key cs with
  | none => none
  | some r1 =>
    match r1.dropWhile isPyWs with
    | c :: r3 =>
      if c == '=' then
        match r3.dropWhile isPyWs with
        | d :: r5 =>
          if d == '"' then
            let cap := r5.takeWhile (fun e => !(e == '"'))
            match r5.drop cap.length with
            | e :: _ =>
              if e == '"' && !cap.isEmpty then some (String.mk cap) else none
            | [] => none
          else none
        | [] => none
      else none
    | [] => none

/-- `re.search` for the assignment pattern: first match position wins. -/
def reSearchAssign (key : List Char) : List Char → Option String
  | [] => none
  | c :: rest =>
    match matchAssignAt key (c :: rest) with
    | some cap => some cap
    | none => reSearchAssign key rest

/-- `get_addon_info_from_package_py`: regex extraction of the
`name = "..."` and `version = "..."` assignments; yields a rez-style
descriptor with lower bound 1.0.3 and no upper bound. -/
def get_addon_info_from_package_py (manifest_data : String) :
    Except InstallError AddonZipInfo :=
  let package_name := reSearchAssign "name".toList manifest_data.toList
  let package_version := reSearchAssign "version".toList manifest_data.toList
  if truthy package_name && truthy package_version then
    match package_name, package_version with
    | some n, some v =>
      .ok { name := n, version := v, min_ayon_version := v103, is_rez := true }
    | _, _ => .error (.unsupported "Addon name or version not found in package.py")
  else
    .error (.unsupported "Addon name or version not found in package.py")

/-! ## Archives and manifest selection -/

/-- A path in the archive or on disk, as its slash-separated components. -/
abbrev FPath := List String

/-- The entries of a zip archive: entry path and text content. -/
abbrev Archive := List (FPath × String)

/-- The decoded content of a byte stream handed to `zipfile.ZipFile`:
either a well-formed zip archive or something `zipfile` rejects. -/
inductive ZipData where
  | zip (members : Archive)
  | notZip
deriving DecidableEq

/-- The member list of a zip (empty for a rejected stream). -/
def zipMembers : ZipData → Archive
  | .zip ms => ms
  | .notZip => []

/-- `zip_ref.namelist()`. -/
def namesOf (ms : Archive) : List FPath := ms.map (fun m => m.1)

/-- `zip_ref.open(name).read()`: the zip directory maps a duplicated
entry name to its last occurrence. -/
def arGetLast (ms : Archive) (rel : FPath) : Option String :=
  ms.foldl (fun acc m => if m.1 = rel then some m.2 else acc) none

/-- The fixed, ordered candidate list of `get_addon_zip_info`. -/
def PARSERS : List (FPath × (String → Except InstallError AddonZipInfo)) :=
  [ (["manifest.json"], get_addon_info_from_manifest),
    (["package.yaml"], get_addon_info_from_package_yaml),
    (["package.yml"], get_addon_info_from_package_yaml),
    (["package.py"], get_addon_info_from_package_py) ]

/-- The selection loop of `get_addon_zip_info`: the first candidate whose
entry name occurs in the archive's name list is chosen; the loop breaks
after parsing it. -/
def findManifestIn :
    List (FPath × (String → Except InstallError AddonZipInfo)) → Archive →
    Option (FPath × (String → Except InstallError AddonZipInfo))
  | [], _ => none
  | (nm, pr) :: rest, ms =>
    if nm ∈ namesOf ms then some (nm, pr) else findManifestIn rest ms

/-- `get_addon_zip_info`: open the zip, select and run the first matching
manifest parser, then apply the compatibility gate. -/
def get_addon_zip_info (ayonVer : SemVer) (zd : ZipData) :
    Except InstallError AddonZipInfo :=
  match zd with
  | .notZip => .error .badZipFile
  | .zip ms =>
    match findManifestIn PARSERS ms with
    | none => .error (.unsupported "Unsupported addon format")
    | some (nm, pr) =>
      match arGetLast ms nm with
      | none => .error .badZipFile
      | some content =>
        match pr content with
        | .error e => .error e
        | .ok zi => checkCompat ayonVer zi

/-! ## Filesystem model

The on-disk state is a finite map from file paths to file data,
represented as an association list (first match wins on lookup; the
mutation operations keep keys unique).  Directories are implicit: a
directory exists when some file lives strictly below its path. -/

/-- The data stored in a file: extracted text members, or the raw bytes
of a downloaded archive. -/
inductive FileData where
  | text (s : String)
  | zipBytes (z : ZipData)
deriving DecidableEq

instance : Inhabited FileData := ⟨.text ""⟩

/-- The filesystem: an association list from paths to file data. -/
abbrev FS := List (FPath × FileData)

/-- Path lookup (the unique entry for the path, if any). -/
def fsGet : FS → FPath → Option FileData
  | [], _ => none
  | e :: rest, q => if q = e.1 then some e.2 else fsGet rest q

/-- `pfx d p`: `d` is a leading segment of `p` (a file at `p` lives at or
below the directory path `d`). -/
def pfx : FPath → FPath → Bool
  | [], _ => true
  | _ :: _, [] => false
  | a :: as, b :: bs => a == b && pfx as bs

/-- Write (create or overwrite) one file. -/
def fsWrite (fs : FS) (p : FPath) (c : FileData) : FS :=
  (p, c) :: fs.filter (fun e => !(decide (e.1 = p)))

/-- `os.remove`: drop the file at exactly `p`. -/
def fsRemove (fs : FS) (p : FPath) : FS :=
  fs.filter (fun e => !(decide (e.1 = p)))

/-- `shutil.rmtree d`: drop every file at or below `d`. -/
def rmTree (fs : FS) (d : FPath) : FS :=
  fs.filter (fun e => !(pfx d e.1))

/-- `os.path.isdir d`: some file lives strictly below `d`. -/
def isdir (fs : FS) (d : FPath) : Bool :=
  fs.any (fun e => pfx d e.1 && decide (d.length < e.1.length))

/-- `os.path.exists s` for a move source: a file or directory at `s`. -/
def existsPath (fs : FS) (s : FPath) : Bool :=
  fs.any (fun e => pfx s e.1)

/-- Relocate the subtree rooted at `src` to `dst` (the rename performed
by `shutil.move`, or the per-file walk of the rez branch). -/
def moveSubtree (fs : FS) (src dst : FPath) : FS :=
  fs.map (fun e =>
    if pfx src e.1 then (dst ++ e.1.drop src.length, e.2) else e)

/-- Extract every archive member below `dst`, preserving archive order
(`zip_ref.extract` per member; later duplicates overwrite earlier ones).
Permission bits (`external_attr`) are not modelled. -/
def extractAll (fs : FS) (dst : FPath) (ms : Archive) : FS :=
  ms.foldl (fun acc m => fsWrite acc (dst ++ m.1) (.text m.2)) fs

/-! ## The unpacker and installer -/

/-- The final install directory `{root}/{name}/{version}`. -/
def targetDir (root : FPath) (zi : AddonZipInfo) : FPath :=
  root ++ [zi.name, zi.version]

/-- `unpack_addon_sync`: extract the archive into a fresh temporary
directory under the install root, remove any existing target directory,
then relocate the payload — the whole scratch tree for a rez package, or
the `addon/` subdirectory otherwise.  The temporary directory is removed
on every exit path (the `TemporaryDirectory` context).  The returned pair
is the raised exception, if any, and the resulting disk state. -/
def unpack_addon_sync (fs : FS) (root : FPath) (tmpName : String)
    (ms : Archive) (zi : AddonZipInfo) : Option InstallError × FS :=
  let tgt := targetDir root zi
  let tmp := root ++ [tmpName]
  let fs1 := extractAll fs tmp ms
  let fs2 := if isdir fs1 tgt then rmTree fs1 tgt else fs1
  if zi.is_rez then
    (none, rmTree (moveSubtree fs2 tmp tgt) tmp)
  else
    if existsPath fs2 (tmp ++ ["addon"]) then
      (none, rmTree (moveSubtree fs2 (tmp ++ ["addon"]) tgt) tmp)
    else
      (some (.fsError "No such file or directory"), rmTree fs2 tmp)

/-- One update sent to the progress/event sink (`update_event`). -/
structure Ev where
  description : Option String := none
  status : Option String := none
  progress : Option Nat := none
deriving DecidableEq

/-- `unpack_addon`: report the unpacking phase, run `unpack_addon_sync`
in the executor catching any error into a `failed` report, best-effort
remove the zip file, then report `finished`.  Returns the emitted event
trace and the final disk state; the function itself never raises. -/
def unpack_addon (fs : FS) (root : FPath) (tmpName : String)
    (zipPath : FPath) (ms : Archive) (zi : AddonZipInfo) : List Ev × FS :=
  let e1 : Ev :=
    { description := some ("Unpacking addon " ++ zi.name ++ " " ++ zi.version),
      status := some "in_progress" }
  let fin : Ev :=
    { description := some ("Addon " ++ zi.name ++ " " ++ zi.version ++ " installed"),
      status := some "finished" }
  match unpack_addon_sync fs root tmpName ms zi with
  | (none, fs1) => ([e1, fin], fsRemove fs1 zipPath)
  | (some e, fs1) =>
    let efail : Ev :=
      { description := some ("Error while unpacking addon: " ++ errMsg e),
        status := some "failed" }
    ([e1, efail, fin], fsRemove fs1 zipPath)

/-- An HTTP response as the streaming download observes it: status code,
`content-length` header (0 when absent) and the streamed body, already
decoded as zip data or not. -/
structure HttpResponse where
  status : Nat
  contentLength : Nat
  body : ZipData
deriving DecidableEq

/-- `install_addon_from_url`: report the download, stream the response
body into a named temporary file under the install root (the status code
is never inspected), parse and gate the archive, report the install
phase, unpack synchronously in the executor, and report `finished`.  The
temporary file is deleted when its context exits, on success and on
error alike.  Per-chunk progress updates are throttled by wall-clock
time and are not modelled.  The second component is the outcome: `ok`
for normal return, `error` for an exception propagating to the caller. -/
def install_addon_from_url (ayonVer : SemVer) (fs : FS) (root : FPath)
    (scratchName tmpDirName : String) (url : String) (resp : HttpResponse) :
    List Ev × Except InstallError Unit × FS :=
  let e1 : Ev :=
    { description := some ("Downloading addon from URL " ++ url),
      status := some "in_progress" }
  let scratch := root ++ [scratchName]
  let fsA := fsWrite fs scratch (.zipBytes resp.body)
  match get_addon_zip_info ayonVer resp.body with
  | .error e => ([e1], .error e, fsRemove fsA scratch)
  | .ok zi =>
    let e2 : Ev :=
      { description := some ("Installing addon " ++ zi.name ++ " " ++ zi.version),
        status := some "in_progress", progress := some 50 }
    match unpack_addon_sync fsA root tmpDirName (zipMembers resp.body) zi with
    | (some e, fsB) => ([e1, e2], .error e, fsRemove fsB scratch)
    | (none, fsB) =>
      let fin : Ev :=
        { description := some ("Addon " ++ zi.name ++ " " ++ zi.version ++ " installed"),
          status := some "finished" }
      ([e1, e2, fin], .ok (), fsRemove fsB scratch)

/-! ## Concrete sample inputs used by witnesses and counterexamples -/

/-- Version literal 1.1.0. -/
def v110 : SemVer := { major := 1, minor := 1, patch := 0 }

/-- Version literal 1.3.0. -/
def v130 : SemVer := { major := 1, minor := 3, patch := 0 }

/-- A descriptor with the JSON manifest's fixed bounds. -/
def sampleInfo : AddonZipInfo :=
  { name := "tvpaint", version := "1.0.0",
    min_ayon_version := v100, max_ayon_version := some v120 }

/-- The JSON manifest text of end-to-end scenario 1. -/
def jsonTvpaint : String := "\x7b\"name\":\"tvpaint\",\"version\":\"1.0.0\"\x7d"

/-- A JSON manifest whose `addon_name`/`addon_version` fields are set but
whose `name`/`version` fields are empty strings. -/
def jsonEmptyName : String :=
  "\x7b\"addon_name\":\"a\",\"addon_version\":\"b\",\"name\":\"\",\"version\":\"\"\x7d"

/-- A JSON manifest carrying all four fields with nonempty values. -/
def jsonFourField : String :=
  "\x7b\"addon_name\":\"tvpaint\",\"addon_version\":\"1.0.0\",\"name\":\"tvpaint\",\"version\":\"1.0.0\"\x7d"

/-- An archive holding both a JSON manifest and a YAML package file. -/
def archiveBoth : Archive :=
  [ (["manifest.json"], jsonTvpaint),
    (["package.yaml"], "name: tvpaint\nversion: 1.0.0") ]

/-- An archive with no recognized manifest entry. -/
def archiveNoManifest : Archive := [(["junk.txt"], "")]

/-- A standard (non-rez) archive missing the `addon/` directory. -/
def archiveNoAddonDir : Archive := [(["stuff.txt"], "x")]

/-- A standard archive whose payload is one file under `addon/`. -/
def archiveStd : Archive := [(["addon", "b.txt"], "new")]

/-- A 404 response whose body is not a zip archive. -/
def resp404 : HttpResponse := { status := 404, contentLength := 0, body := .notZip }

/-- A successful response carrying a zip whose JSON manifest parses but
whose fixed upper bound 1.2.0 rejects platform version 1.3.0. -/
def respJson : HttpResponse :=
  { status := 200, contentLength := 100,
    body := .zip [(["manifest.json"], jsonFourField)] }

/-- A successful response carrying a zip with no recognized manifest. -/
def respNoManifest : HttpResponse :=
  { status := 200, contentLength := 100, body := .zip archiveNoManifest }

/-- A prior install of `tvpaint/1.0.0` under root `r`, holding one stale
file. -/
def fsPrior : FS := [(["r", "tvpaint", "1.0.0", "old.txt"], .text "old")]

/-! ## Path and filesystem lemmas -/

theorem pfx_iff (d q : FPath) : pfx d q = true ↔ ∃ t, q = d ++ t := by
  induction d generalizing q with
  | nil => simp [pfx]
  | cons a as ih =>
    cases q with
    | nil =>
      simp only [pfx, List.cons_append]
      constructor
      · intro h; exact absurd h (by simp)
      · rintro ⟨t, ht⟩; exact absurd ht (by simp)
    | cons b bs =>
      simp only [pfx, Bool.and_eq_true, beq_iff_eq, ih, List.cons_append]
      constructor
      · rintro ⟨rfl, t, rfl⟩; exact ⟨t, rfl⟩
      · rintro ⟨t, ht⟩
        injection ht with h1 h2
        exact ⟨h1.symm, t, h2⟩

theorem pfx_append (d t : FPath) : pfx d (d ++ t) = true :=
  (pfx_iff d (d ++ t)).mpr ⟨t, rfl⟩

theorem pfx_refl (p : FPath) : pfx p p = true := by
  have h := pfx_append p []
  simpa using h

theorem pfx_drop {d q : FPath} (h : pfx d q = true) :
    d ++ q.drop d.length = q := by
  obtain ⟨t, rfl⟩ := (pfx_iff d q).mp h
  rw [List.drop_left]

theorem pfx_trans {a b c : FPath} (h1 : pfx a b = true) (h2 : pfx b c = true) :
    pfx a c = true := by
  obtain ⟨t1, rfl⟩ := (pfx_iff a b).mp h1
  obtain ⟨t2, rfl⟩ := (pfx_iff (a ++ t1) c).mp h2
  exact (pfx_iff _ _).mpr ⟨t1 ++ t2, by simp⟩

theorem pfx_app_left (r s t : FPath) : pfx (r ++ s) (r ++ t) = pfx s t := by
  induction r with
  | nil => simp
  | cons a rs ih => simp [pfx, ih]

theorem fsGet_filter (P : FPath → Bool) (fs : FS) (q : FPath) :
    fsGet (fs.filter (fun e => P e.1)) q =
      if P q = true then fsGet fs q else none := by
  induction fs with
  | nil => simp [fsGet]
  | cons e rest ih =>
    by_cases hq : q = e.1
    · subst hq
      cases hP : P e.1
      · simp [List.filter_cons, hP, ih, fsGet]
      · simp [List.filter_cons, hP, fsGet]
    · cases hP : P e.1
      · simp [List.filter_cons, hP, ih, fsGet, hq]
      · simp [List.filter_cons, hP, fsGet, hq, ih]

theorem fsGet_fsRemove (fs : FS) (p q : FPath) :
    fsGet (fsRemove fs p) q = if q = p then none else fsGet fs q := by
  have h := fsGet_filter (fun x => !(decide (x = p))) fs q
  simp only [fsRemove]
  rw [h]
  by_cases hq : q = p <;> simp [hq]

theorem fsGet_rmTree (fs : FS) (d q : FPath) :
    fsGet (rmTree fs d) q = if pfx d q = true then none else fsGet fs q := by
  have h := fsGet_filter (fun x => !(pfx d x)) fs q
  simp only [rmTree]
  rw [h]
  cases hq : pfx d q <;> simp [hq]

theorem fsGet_fsWrite (fs : FS) (p : FPath) (c : FileData) (q : FPath) :
    fsGet (fsWrite fs p c) q = if q = p then some c else fsGet fs q := by
  simp only [fsWrite, fsGet]
  by_cases hq : q = p
  · simp [hq]
  · have h := fsGet_filter (fun x => !(decide (x = p))) fs q
    simp [hq] at h ⊢
    rw [h]

theorem foldl_arGet_init (ms : Archive) (rel : FPath) (init : Option String) :
    ms.foldl (fun acc m => if m.1 = rel then some m.2 else acc) init =
      match arGetLast ms rel with
      | some c => some c
      | none => init := by
  induction ms generalizing init with
  | nil => simp [arGetLast]
  | cons m rest ih =>
    simp only [List.foldl_cons]
    rw [ih]
    conv_rhs =>
      rw [show arGetLast (m :: rest) rel =
            rest.foldl (fun acc x => if x.1 = rel then some x.2 else acc)
              (if m.1 = rel then some m.2 else none) from rfl]
    rw [ih]
    cases arGetLast rest rel <;> by_cases hm : m.1 = rel <;> simp [hm]

theorem arGetLast_cons (m : FPath × String) (rest : Archive) (rel : FPath) :
    arGetLast (m :: rest) rel =
      match arGetLast rest rel with
      | some c => some c
      | none => if m.1 = rel then some m.2 else none := by
  have h := foldl_arGet_init rest rel (if m.1 = rel then some m.2 else none)
  simpa [arGetLast] using h

theorem fsGet_extractAll (fs : FS) (dst : FPath) (ms : Archive) (q : FPath) :
    fsGet (extractAll fs dst ms) q =
      if pfx dst q = true then
        match arGetLast ms (q.drop dst.length) with
        | some c => some (.text c)
        | none => fsGet fs q
      else fsGet fs q := by
  induction ms generalizing fs with
  | nil =>
    simp only [extractAll, List.foldl_nil, arGetLast, List.foldl_nil]
    split <;> rfl
  | cons m rest ih =>
    simp only [extractAll, List.foldl_cons] at ih ⊢
    rw [ih, arGetLast_cons]
    cases hp : pfx dst q
    · simp only [Bool.false_eq_true, if_false]
      rw [fsGet_fsWrite]
      have hne : ¬(q = dst ++ m.1) := by
        intro hq
        rw [hq, pfx_append] at hp
        simp at hp
      simp [hne]
    · simp only [if_true]
      cases har : arGetLast rest (q.drop dst.length)
      · rw [fsGet_fsWrite]
        by_cases hm : m.1 = q.drop dst.length
        · have hq : q = dst ++ m.1 := by
            rw [hm]
            exact (pfx_drop hp).symm
          rw [if_pos hq, if_pos hm]
        · have hne : ¬(q = dst ++ m.1) := by
            intro hq
            apply hm
            rw [hq, List.drop_left]
          simp [hne, hm]
      · simp

theorem mem_extractAll (fs : FS) (dst : FPath) (ms : Archive)
    (e : FPath × FileData) (he : e ∈ fs) (hk : pfx dst e.1 = false) :
    e ∈ extractAll fs dst ms := by
  induction ms generalizing fs with
  | nil => exact he
  | cons m rest ih =>
    simp only [extractAll, List.foldl_cons] at ih ⊢
    apply ih
    simp only [fsWrite, List.mem_cons, List.mem_filter]
    right
    refine ⟨he, ?_⟩
    have hne : ¬(e.1 = dst ++ m.1) := by
      intro hq
      rw [hq, pfx_append] at hk
      simp at hk
    simp [hne]

theorem isdir_iff (fs : FS) (d : FPath) :
    isdir fs d = true ↔
      ∃ e ∈ fs, pfx d e.1 = true ∧ d.length < e.1.length := by
  simp [isdir, List.any_eq_true, Bool.and_eq_true, decide_eq_true_eq]

theorem existsPath_iff (fs : FS) (s : FPath) :
    existsPath fs s = true ↔ ∃ e ∈ fs, pfx s e.1 = true := by
  simp [existsPath, List.any_eq_true]

theorem fsGet_moveSubtree (src dst q : FPath) :
    ∀ fs : FS, (∀ e ∈ fs, pfx dst e.1 = false) →
    fsGet (moveSubtree fs src dst) q =
      if pfx dst q = true then fsGet fs (src ++ q.drop dst.length)
      else if pfx src q = true then none
      else fsGet fs q := by
  intro fs
  induction fs with
  | nil =>
    intro _
    simp only [moveSubtree, List.map_nil]
    split
    · rfl
    · split <;> rfl
  | cons e rest ih =>
    intro hdst
    have hde : pfx dst e.1 = false := hdst e (List.mem_cons_self e rest)
    have hdr : ∀ x ∈ rest, pfx dst x.1 = false :=
      fun x hx => hdst x (List.mem_cons_of_mem e hx)
    have IH := ih hdr
    simp only [moveSubtree] at IH ⊢
    rw [List.map_cons]
    cases hsrc : pfx src e.1
    · have hsrcP : ¬(pfx src e.1 = true) := by simp [hsrc]
      rw [if_neg (by simp : ¬(false = true))]
      simp only [fsGet]
      by_cases hq : q = e.1
      · rw [if_pos hq]
        have hpq : ¬(pfx dst q = true) := by rw [hq, hde]; simp
        have hsq : ¬(pfx src q = true) := by rw [hq]; exact hsrcP
        rw [if_neg hpq, if_neg hsq, if_pos hq]
      · rw [if_neg hq, IH]
        by_cases hpq : pfx dst q = true
        · rw [if_pos hpq, if_pos hpq]
          have hne : ¬(src ++ q.drop dst.length = e.1) := by
            intro hcontra
            rw [← hcontra, pfx_append] at hsrc
            simp at hsrc
          rw [if_neg hne]
        · rw [if_neg hpq, if_neg hpq]
          by_cases hsq : pfx src q = true
          · rw [if_pos hsq, if_pos hsq]
          · rw [if_neg hsq, if_neg hsq, if_neg hq]
    · rw [if_pos (rfl : true = true)]
      simp only [fsGet]
      by_cases hq : q = dst ++ e.1.drop src.length
      · rw [if_pos hq]
        have hpq : pfx dst q = true := by rw [hq]; exact pfx_append dst _
        rw [if_pos hpq]
        have h1 : src ++ q.drop dst.length = e.1 := by
          rw [hq, List.drop_left]
          exact pfx_drop hsrc
        rw [h1, if_pos rfl]
      · rw [if_neg hq, IH]
        by_cases hpq : pfx dst q = true
        · rw [if_pos hpq, if_pos hpq]
          have hne : ¬(src ++ q.drop dst.length = e.1) := by
            intro hcontra
            apply hq
            have h2 : e.1.drop src.length = q.drop dst.length := by
              rw [← hcontra, List.drop_left]
            rw [h2]
            exact (pfx_drop hpq).symm
          rw [if_neg hne]
        · rw [if_neg hpq, if_neg hpq]
          by_cases hsq : pfx src q = true
          · rw [if_pos hsq, if_pos hsq]
          · rw [if_neg hsq, if_neg hsq]
            have hne : ¬(q = e.1) := by
              intro hcontra
              apply hsq
              rw [hcontra]
              exact hsrc
            rw [if_neg hne]

theorem pfx_app_cons (r : FPath) (a b : String) (s t : FPath) :
    pfx (r ++ a :: s) (r ++ b :: t) = ((a == b) && pfx s t) := by
  rw [pfx_app_left r (a :: s) (b :: t)]
  rfl

theorem rmTree_no_entries (fs : FS) (d : FPath) :
    ∀ e ∈ rmTree fs d, pfx d e.1 = false := by
  intro e he
  simp only [rmTree, List.mem_filter] at he
  rcases he with ⟨_, hb⟩
  revert hb
  cases pfx d e.1 <;> simp

theorem bool_ne_true {b : Bool} (h : b = false) : ¬(b = true) := by
  rw [h]; simp

/-- C4: re-installing a (name, version) pair that is already installed
leaves exactly one `{root}/{name}/{version}` tree on disk whose files are
exactly the new archive's payload (the `addon/` subtree for a standard
package, the whole archive for a rez package) — the prior contents are
fully removed, nothing is merged — and every path outside the target and
the temporary directory is untouched. -/
theorem unpack_addon_sync_replaces_target
    (fs : FS) (root : FPath) (tmpName : String) (ms : Archive)
    (zi : AddonZipInfo) (fs' : FS)
    (hfresh : ∀ p, pfx (root ++ [tmpName]) p = true → fsGet fs p = none)
    (hname : tmpName ≠ zi.name)
    (hprev : isdir fs (targetDir root zi) = true)
    (hok : unpack_addon_sync fs root tmpName ms zi = (none, fs')) :
    (∀ rel, fsGet fs' (targetDir root zi ++ rel) =
        Option.map FileData.text
          (arGetLast ms (if zi.is_rez then rel else "addon" :: rel)))
    ∧ (∀ p, pfx (targetDir root zi) p = false →
        pfx (root ++ [tmpName]) p = false → fsGet fs' p = fsGet fs p) := by
  have hdisj1 : ∀ X, pfx (root ++ [tmpName]) (targetDir root zi ++ X) = false := by
    intro X
    have h1 : targetDir root zi ++ X = root ++ (zi.name :: zi.version :: X) := by
      simp [targetDir]
    rw [h1, show root ++ [tmpName] = root ++ tmpName :: ([] : FPath) from rfl,
      pfx_app_cons]
    simp [hname]
  have hdisj2 : ∀ X, pfx (targetDir root zi) (root ++ [tmpName] ++ X) = false := by
    intro X
    have h1 : root ++ [tmpName] ++ X = root ++ (tmpName :: X) := by simp
    rw [h1, show targetDir root zi = root ++ zi.name :: [zi.version] from rfl,
      pfx_app_cons]
    simp [Ne.symm hname]
  have hdir1 : isdir (extractAll fs (root ++ [tmpName]) ms) (targetDir root zi) = true := by
    obtain ⟨e, he, hpe, hlen⟩ := (isdir_iff fs (targetDir root zi)).mp hprev
    obtain ⟨t, ht⟩ := (pfx_iff _ _).mp hpe
    have htmp : pfx (root ++ [tmpName]) e.1 = false := by
      rw [ht]; exact hdisj1 t
    exact (isdir_iff _ _).mpr ⟨e, mem_extractAll fs _ ms e he htmp, hpe, hlen⟩
  simp only [unpack_addon_sync] at hok
  rw [if_pos hdir1] at hok
  cases hrez : zi.is_rez
  · rw [if_neg (bool_ne_true hrez)] at hok
    cases hex : existsPath
        (rmTree (extractAll fs (root ++ [tmpName]) ms) (targetDir root zi))
        (root ++ [tmpName] ++ ["addon"])
    · rw [if_neg (bool_ne_true hex)] at hok
      injection hok with h1 _
      simp at h1
    · rw [if_pos hex] at hok
      injection hok with h1 h2
      subst h2
      constructor
      · intro rel
        rw [fsGet_rmTree, if_neg (bool_ne_true (hdisj1 rel))]
        rw [fsGet_moveSubtree _ _ _ _ (rmTree_no_entries _ _)]
        rw [if_pos (pfx_append _ _), List.drop_left]
        have hsr : root ++ [tmpName] ++ ["addon"] ++ rel =
            root ++ [tmpName] ++ ("addon" :: rel) := by simp
        rw [hsr]
        rw [fsGet_rmTree, if_neg (bool_ne_true (hdisj2 ("addon" :: rel)))]
        rw [fsGet_extractAll, if_pos (pfx_append _ _), List.drop_left]
        rw [hfresh _ (pfx_append _ _)]
        rw [show (if false = true then rel else "addon" :: rel) = "addon" :: rel
          from rfl]
        cases arGetLast ms ("addon" :: rel) <;> rfl
      · intro p hP1 hP2
        rw [fsGet_rmTree, if_neg (bool_ne_true hP2)]
        have hsrcp : pfx (root ++ [tmpName] ++ ["addon"]) p = false := by
          cases h : pfx (root ++ [tmpName] ++ ["addon"]) p
          · rfl
          · have := pfx_trans (pfx_append (root ++ [tmpName]) ["addon"]) h
            rw [hP2] at this
            simp at this
        rw [fsGet_moveSubtree _ _ _ _ (rmTree_no_entries _ _)]
        rw [if_neg (bool_ne_true hP1), if_neg (bool_ne_true hsrcp)]
        rw [fsGet_rmTree, if_neg (bool_ne_true hP1)]
        rw [fsGet_extractAll, if_neg (bool_ne_true hP2)]
  · rw [if_pos hrez] at hok
    injection hok with h1 h2
    subst h2
    constructor
    · intro rel
      rw [fsGet_rmTree, if_neg (bool_ne_true (hdisj1 rel))]
      rw [fsGet_moveSubtree _ _ _ _ (rmTree_no_entries _ _)]
      rw [if_pos (pfx_append _ _), List.drop_left]
      rw [fsGet_rmTree, if_neg (bool_ne_true (hdisj2 rel))]
      rw [fsGet_extractAll, if_pos (pfx_append _ _), List.drop_left]
      rw [hfresh _ (pfx_append _ _)]
      rw [show (if true = true then rel else "addon" :: rel) = rel from rfl]
      cases arGetLast ms rel <;> rfl
    · intro p hP1 hP2
      rw [fsGet_rmTree, if_neg (bool_ne_true hP2)]
      rw [fsGet_moveSubtree _ _ _ _ (rmTree_no_entries _ _)]
      rw [if_neg (bool_ne_true hP1), if_neg (bool_ne_true hP2)]
      rw [fsGet_rmTree, if_neg (bool_ne_true hP1)]
      rw [fsGet_extractAll, if_neg (bool_ne_true hP2)]

/-! ## Order properties of the semver comparison -/

theorem ncmp_self (n : Nat) : ncmp n n = .eq := by
  unfold ncmp
  simp

theorem ncmp_swap (a b : Nat) : (ncmp a b).swap = ncmp b a := by
  unfold ncmp
  rcases Nat.lt_trichotomy a b with h | h | h
  · simp [h, Nat.lt_asymm h, Ordering.swap]
  · subst h
    simp [Nat.lt_irrefl, Ordering.swap]
  · simp [h, Nat.lt_asymm h, Ordering.swap]

theorem lcmp_self (s : List Char) : lcmp s s = .eq := by
  induction s with
  | nil => rfl
  | cons a as ih =>
    simp only [lcmp]
    rw [show ccmp a a = .eq from by
      have h := ncmp_self a.toNat
      exact h]
    exact ih

theorem lcmp_swap (s t : List Char) : (lcmp s t).swap = lcmp t s := by
  induction s generalizing t with
  | nil => cases t <;> rfl
  | cons a as ih =>
    cases t with
    | nil => rfl
    | cons b bs =>
      simp only [lcmp]
      have hsw : ccmp b a = (ccmp a b).swap := (ncmp_swap a.toNat b.toNat).symm
      rw [hsw]
      cases ccmp a b
      · rfl
      · exact ih bs
      · rfl

theorem pidCmp_self (x : PreId) : pidCmp x x = .eq := by
  cases x with
  | num n => exact ncmp_self n
  | alpha s => exact lcmp_self s

theorem pidCmp_swap (x y : PreId) : (pidCmp x y).swap = pidCmp y x := by
  cases x <;> cases y <;> first
    | exact ncmp_swap _ _
    | exact lcmp_swap _ _
    | rfl

theorem preCmp_self (l : List PreId) : preCmp l l = .eq := by
  induction l with
  | nil => rfl
  | cons x xs ih =>
    simp only [preCmp]
    rw [pidCmp_self]
    exact ih

theorem preCmp_swap (s t : List PreId) : (preCmp s t).swap = preCmp t s := by
  induction s generalizing t with
  | nil => cases t <;> rfl
  | cons x xs ih =>
    cases t with
    | nil => rfl
    | cons y ys =>
      simp only [preCmp]
      rw [show pidCmp y x = (pidCmp x y).swap from (pidCmp_swap x y).symm]
      cases pidCmp x y
      · rfl
      · exact ih ys
      · rfl

theorem svCompare_self (a : SemVer) : svCompare a a = .eq := by
  unfold svCompare
  rw [ncmp_self, ncmp_self, ncmp_self]
  cases a.prerelease with
  | nil => rfl
  | cons x xs => exact preCmp_self (x :: xs)

theorem svCompare_swap (a b : SemVer) : (svCompare a b).swap = svCompare b a := by
  unfold svCompare
  rw [show ncmp b.major a.major = (ncmp a.major b.major).swap from
        (ncmp_swap _ _).symm,
      show ncmp b.minor a.minor = (ncmp a.minor b.minor).swap from
        (ncmp_swap _ _).symm,
      show ncmp b.patch a.patch = (ncmp a.patch b.patch).swap from
        (ncmp_swap _ _).symm]
  cases ncmp a.major b.major
  · rfl
  · cases ncmp a.minor b.minor
    · rfl
    · cases ncmp a.patch b.patch
      · rfl
      · cases a.prerelease <;> cases b.prerelease
        · rfl
        · rfl
        · rfl
        · exact preCmp_swap _ _
      · rfl
    · rfl
  · rfl

theorem svLe_of_not_lt {p m : SemVer} (h : ¬(svCompare p m = .lt)) :
    svLe m p := by
  intro hgt
  have hsw := svCompare_swap p m
  rw [hgt] at hsw
  cases hc : svCompare p m
  · exact h hc
  · rw [hc] at hsw
    exact Ordering.noConfusion hsw
  · rw [hc] at hsw
    exact Ordering.noConfusion hsw

theorem not_lt_of_svLe {p m : SemVer} (h : svLe m p) :
    ¬(svCompare p m = .lt) := by
  intro hlt
  apply h
  rw [← svCompare_swap p m, hlt]
  rfl

/-- C1: for every platform version `p` and every descriptor `d`, the
compatibility gate accepts (returns the descriptor) iff
`d.min_ayon_version <= p` and (`d.max_ayon_version` absent or
`p < d.max_ayon_version`) in semantic-version order; moreover `p` equal
to the minimum bound is accepted (when the upper bound does not also
exclude it) and `p` equal to the maximum bound is rejected. -/
theorem checkCompat_correct (d : AddonZipInfo) :
    (∀ p, checkCompat p d = .ok d ↔
        (svLe d.min_ayon_version p ∧
          (d.max_ayon_version = none ∨
            ∃ mx, d.max_ayon_version = some mx ∧ svLt p mx)))
    ∧ ((d.max_ayon_version = none ∨
          ∃ mx, d.max_ayon_version = some mx ∧ svLt d.min_ayon_version mx) →
        checkCompat d.min_ayon_version d = .ok d)
    ∧ (∀ mx, d.max_ayon_version = some mx → checkCompat mx d ≠ .ok d) := by
  refine ⟨?_, ?_, ?_⟩
  · intro p
    unfold checkCompat
    by_cases h1 : svCompare p d.min_ayon_version = .lt
    · rw [if_pos h1]
      constructor
      · intro habs
        exact Except.noConfusion habs
      · rintro ⟨hle, _⟩
        exact absurd h1 (not_lt_of_svLe hle)
    · rw [if_neg h1]
      cases hmx : d.max_ayon_version with
      | none =>
        constructor
        · intro _
          exact ⟨svLe_of_not_lt h1, Or.inl rfl⟩
        · intro _
          rfl
      | some mx =>
        simp only []
        by_cases h2 : svCompare p mx = .lt
        · rw [if_pos h2]
          constructor
          · intro _
            exact ⟨svLe_of_not_lt h1, Or.inr ⟨mx, rfl, h2⟩⟩
          · intro _
            rfl
        · rw [if_neg h2]
          constructor
          · intro habs
            exact Except.noConfusion habs
          · rintro ⟨_, hor⟩
            rcases hor with hnone | ⟨mx', heq, hlt⟩
            · exact Option.noConfusion hnone
            · injection heq with he
              rw [← he] at hlt
              exact absurd hlt h2
  · intro hmax
    unfold checkCompat
    rw [if_neg (by rw [svCompare_self]; intro h; exact Ordering.noConfusion h)]
    rcases hmax with hnone | ⟨mx, heq, hlt⟩
    · rw [hnone]
    · rw [heq]
      simp only []
      rw [if_pos (show svCompare d.min_ayon_version mx = .lt from hlt)]
  · intro mx hmx habs
    unfold checkCompat at habs
    rw [hmx] at habs
    by_cases h1 : svCompare mx d.min_ayon_version = .lt
    · rw [if_pos h1] at habs
      exact Except.noConfusion habs
    · rw [if_neg h1] at habs
      simp only [] at habs
      rw [if_neg (by rw [svCompare_self]; intro h; exact Ordering.noConfusion h)]
        at habs
      exact Except.noConfusion habs

/-- Witness for C1 at the JSON manifest's fixed bounds: platform 1.1.0 is
inside the range, 1.0.0 sits exactly on the inclusive lower bound, and
1.2.0 sits exactly on the exclusive upper bound. -/
theorem checkCompat_correct_witness :
    checkCompat v110 sampleInfo = .ok sampleInfo
    ∧ checkCompat v100 sampleInfo = .ok sampleInfo
    ∧ ¬(checkCompat v120 sampleInfo = .ok sampleInfo) := by
  have h := checkCompat_correct sampleInfo
  refine ⟨?_, ?_, h.2.2 v120 rfl⟩
  · exact (h.1 v110).mpr ⟨by decide, Or.inr ⟨v120, rfl, by decide⟩⟩
  · exact h.2.1 (Or.inr ⟨v120, rfl, by decide⟩)

/-- C2: the manifest selection follows the fixed candidate order — JSON
manifest first, then the two YAML package filenames, then the Python
package-definition file — and exactly one candidate is chosen (the
selected parser is the only one run by `get_addon_zip_info`). -/
theorem findManifest_first_match (ms : Archive) :
    (["manifest.json"] ∈ namesOf ms →
      findManifestIn PARSERS ms =
        some (["manifest.json"], get_addon_info_from_manifest))
    ∧ (["manifest.json"] ∉ namesOf ms → ["package.yaml"] ∈ namesOf ms →
      findManifestIn PARSERS ms =
        some (["package.yaml"], get_addon_info_from_package_yaml))
    ∧ (["manifest.json"] ∉ namesOf ms → ["package.yaml"] ∉ namesOf ms →
        ["package.yml"] ∈ namesOf ms →
      findManifestIn PARSERS ms =
        some (["package.yml"], get_addon_info_from_package_yaml))
    ∧ (["manifest.json"] ∉ namesOf ms → ["package.yaml"] ∉ namesOf ms →
        ["package.yml"] ∉ namesOf ms → ["package.py"] ∈ namesOf ms →
      findManifestIn PARSERS ms =
        some (["package.py"], get_addon_info_from_package_py))
    ∧ (["manifest.json"] ∉ namesOf ms → ["package.yaml"] ∉ namesOf ms →
        ["package.yml"] ∉ namesOf ms → ["package.py"] ∉ namesOf ms →
      findManifestIn PARSERS ms = none) := by
  refine ⟨?_, ?_, ?_, ?_, ?_⟩
  · intro h1
    simp only [PARSERS, findManifestIn]
    rw [if_pos h1]
  · intro h1 h2
    simp only [PARSERS, findManifestIn]
    rw [if_neg h1, if_pos h2]
  · intro h1 h2 h3
    simp only [PARSERS, findManifestIn]
    rw [if_neg h1, if_neg h2, if_pos h3]
  · intro h1 h2 h3 h4
    simp only [PARSERS, findManifestIn]
    rw [if_neg h1, if_neg h2, if_neg h3, if_pos h4]
  · intro h1 h2 h3 h4
    simp only [PARSERS, findManifestIn]
    rw [if_neg h1, if_neg h2, if_neg h3, if_neg h4]

/-- Witness for C2: an archive holding both a JSON manifest and a YAML
package file is parsed via the JSON manifest. -/
theorem findManifest_first_match_witness :
    findManifestIn PARSERS archiveBoth =
      some (["manifest.json"], get_addon_info_from_manifest) :=
  (findManifest_first_match archiveBoth).1 (by decide)

/-- C3 (divergence): the JSON manifest of end-to-end scenario 1,
`name: tvpaint, version: 1.0.0`, is rejected with
`UnsupportedAddonException` because `get_addon_info_from_manifest` tests
the `addon_name`/`addon_version` keys while the claim (and the rest of
the function) expect `name`/`version`; the whole archive is therefore
rejected at platform version 1.1.0 instead of installing. -/
theorem manifest_tvpaint_rejected :
    get_addon_info_from_manifest jsonTvpaint =
      .error (.unsupported "Addon name or version not found in manifest")
    ∧ get_addon_zip_info v110 (.zip [(["manifest.json"], jsonTvpaint)]) =
      .error (.unsupported "Addon name or version not found in manifest") :=
  ⟨rfl, rfl⟩

/-- C9 (divergence): a JSON manifest whose `addon_name`/`addon_version`
fields are nonempty but whose `name`/`version` fields are empty strings
passes the parser's guard and yields a descriptor with an empty name and
an empty version, violating the non-emptiness invariant. -/
theorem manifest_empty_name_accepted :
    get_addon_info_from_manifest jsonEmptyName =
      .ok { name := "", version := "", min_ayon_version := v100,
            max_ayon_version := some v120 } :=
  rfl

/-- Helper: on every path through `install_addon_from_url` — parse/gate
error, unpack error, or success — the named temporary file under the
install root is deleted when its context exits. -/
theorem install_scratch_removed (ayonVer : SemVer) (fs : FS) (root : FPath)
    (scratchName tmpDirName url : String) (resp : HttpResponse) :
    fsGet (install_addon_from_url ayonVer fs root scratchName tmpDirName url
        resp).2.2 (root ++ [scratchName]) = none := by
  simp only [install_addon_from_url]
  split
  · show fsGet (fsRemove _ (root ++ [scratchName])) (root ++ [scratchName]) = none
    rw [fsGet_fsRemove, if_pos rfl]
  · split
    · show fsGet (fsRemove _ (root ++ [scratchName])) (root ++ [scratchName]) = none
      rw [fsGet_fsRemove, if_pos rfl]
    · show fsGet (fsRemove _ (root ++ [scratchName])) (root ++ [scratchName]) = none
      rw [fsGet_fsRemove, if_pos rfl]

/-- C10: for every invocation of `install_addon_from_url`, the downloaded
scratch file is gone from disk when the call completes — whether the call
returns normally or an error escapes after download, parsing, gating or
unpacking. -/
theorem install_from_url_scratch_removed (ayonVer : SemVer) (fs : FS)
    (root : FPath) (scratchName tmpDirName url : String) (resp : HttpResponse) :
    fsGet (install_addon_from_url ayonVer fs root scratchName tmpDirName url
        resp).2.2 (root ++ [scratchName]) = none :=
  install_scratch_removed ayonVer fs root scratchName tmpDirName url resp

/-- C5 (counterexample): an archive with no recognized manifest makes
`install_addon_from_url` end with a raised `UnsupportedAddonException`
(the `Except.error` outcome) — the error is not converted into a `failed`
progress report, contradicting the claim that no exception ever
propagates out of the install entry point. -/
theorem install_from_url_error_escapes :
    (install_addon_from_url v110 [] ["r"] "s" "t" "u" respNoManifest).2.1 =
      .error (.unsupported "Unsupported addon format")
    ∧ (install_addon_from_url v110 [] ["r"] "s" "t" "u" respNoManifest).1 =
      [ { description := some "Downloading addon from URL u",
          status := some "in_progress" } ] :=
  ⟨rfl, rfl⟩

/-- C5 (amended): errors raised by the offloaded `unpack_addon_sync` are
caught inside `unpack_addon` and converted into a `failed` progress
report (and `unpack_addon` itself returns normally), while
`install_addon_from_url` lets fetch, parsing, gate and unpack errors
propagate to its caller. -/
theorem unpack_addon_catches_errors (fs : FS) (root : FPath)
    (tmpName : String) (zipPath : FPath) (ms : Archive) (zi : AddonZipInfo)
    (e : InstallError)
    (h : (unpack_addon_sync fs root tmpName ms zi).1 = some e) :
    { description := some ("Error while unpacking addon: " ++ errMsg e),
      status := some "failed" }
      ∈ (unpack_addon fs root tmpName zipPath ms zi).1 := by
  have hu : unpack_addon_sync fs root tmpName ms zi =
      (some e, (unpack_addon_sync fs root tmpName ms zi).2) := by
    rcases hq : unpack_addon_sync fs root tmpName ms zi with ⟨err, fs1⟩
    rw [hq] at h
    simp only [] at h
    rw [h]
  unfold unpack_addon
  rw [hu]
  simp

/-- Witness for the amended C5: a standard archive without an `addon/`
directory fails inside the executor, and `unpack_addon` reports the
failure to the progress sink. -/
theorem unpack_addon_catches_errors_witness :
    { description := some ("Error while unpacking addon: "
        ++ errMsg (.fsError "No such file or directory")),
      status := some "failed" }
      ∈ (unpack_addon [] ["r2"] "t" ["z"] archiveNoAddonDir sampleInfo).1 :=
  unpack_addon_catches_errors [] ["r2"] "t" ["z"] archiveNoAddonDir sampleInfo
    (.fsError "No such file or directory") rfl

/-- C6 (divergence): when the offloaded unpack fails, `unpack_addon`
reports `failed` and then still reports `finished` for the same job —
the error branch does not return early, so `failed` is not terminal. -/
theorem unpack_addon_failed_then_finished :
    (unpack_addon [] ["r"] "t" ["z"] archiveNoAddonDir sampleInfo).1 =
      [ { description := some "Unpacking addon tvpaint 1.0.0",
          status := some "in_progress" },
        { description := some
            "Error while unpacking addon: No such file or directory",
          status := some "failed" },
        { description := some "Addon tvpaint 1.0.0 installed",
          status := some "finished" } ] :=
  rfl

/-- C7 (counterexample): on an HTTP 404 whose body is not a zip archive,
`install_addon_from_url` saves the body, attempts zip parsing on it, and
ends with `BadZipFile` raised to the caller — there is no transfer-error
check before parsing; the scratch file is nevertheless removed. -/
theorem fetch_404_parses_body :
    install_addon_from_url v110 [] ["r"] "s" "t" "u" resp404 =
      ([ { description := some "Downloading addon from URL u",
           status := some "in_progress" } ],
       .error .badZipFile, []) :=
  rfl

/-- C7 (amended): `install_addon_from_url` never inspects the HTTP status
code; for any response whose body is not a zip archive — such as a 404
error page — the body is streamed to the scratch file and failure arises
at zip parsing (`BadZipFile` propagating to the caller, no `failed`
report), and no scratch file remains on disk afterward. -/
theorem fetch_bad_body_fails_at_parse (ayonVer : SemVer) (fs : FS)
    (root : FPath) (scratchName tmpDirName url : String)
    (resp : HttpResponse) (hbody : resp.body = .notZip) :
    (install_addon_from_url ayonVer fs root scratchName tmpDirName url
        resp).2.1 = .error .badZipFile
    ∧ fsGet (install_addon_from_url ayonVer fs root scratchName tmpDirName url
        resp).2.2 (root ++ [scratchName]) = none := by
  refine ⟨?_, install_scratch_removed ayonVer fs root scratchName tmpDirName url resp⟩
  simp only [install_addon_from_url]
  rw [hbody]
  rfl

/-- Witness for the amended C7 at the 404 response of end-to-end
scenario 4. -/
theorem fetch_bad_body_fails_at_parse_witness :
    (install_addon_from_url v110 [] ["r"] "s" "t" "u" resp404).2.1 =
      .error .badZipFile
    ∧ fsGet (install_addon_from_url v110 [] ["r"] "s" "t" "u" resp404).2.2
        (["r"] ++ ["s"]) = none :=
  fetch_bad_body_fails_at_parse v110 [] ["r"] "s" "t" "u" resp404 rfl

/-- C8: when `get_addon_zip_info` rejects the archive — in particular on a
compatibility-gate rejection — `install_addon_from_url` leaves the whole
filesystem exactly as it was: no directory or file is created under the
install root (the transient scratch file is already deleted). -/
theorem rejected_install_leaves_fs_unchanged (ayonVer : SemVer) (fs : FS)
    (root : FPath) (scratchName tmpDirName url : String)
    (resp : HttpResponse) (e : InstallError)
    (herr : get_addon_zip_info ayonVer resp.body = .error e)
    (hfresh : fsGet fs (root ++ [scratchName]) = none) :
    ∀ p, fsGet (install_addon_from_url ayonVer fs root scratchName tmpDirName
        url resp).2.2 p = fsGet fs p := by
  intro p
  simp only [install_addon_from_url]
  rw [herr]
  show fsGet (fsRemove (fsWrite fs (root ++ [scratchName])
      (.zipBytes resp.body)) (root ++ [scratchName])) p = fsGet fs p
  rw [fsGet_fsRemove]
  by_cases hp : p = root ++ [scratchName]
  · rw [if_pos hp, hp, hfresh]
  · rw [if_neg hp, fsGet_fsWrite, if_neg hp]

/-- Witness for C8: platform 1.3.0 against the JSON manifest's fixed
upper bound 1.2.0 (end-to-end scenario 2); the pre-existing install tree
is untouched. -/
theorem rejected_install_leaves_fs_unchanged_witness :
    fsGet (install_addon_from_url v130 fsPrior ["r"] "s" "t" "u" respJson).2.2
      ["r", "tvpaint", "1.0.0", "old.txt"] = some (.text "old") := by
  have h := rejected_install_leaves_fs_unchanged v130 fsPrior ["r"] "s" "t" "u"
    respJson (.unsupported "Ayon version is not supported by this addon")
    rfl rfl
  rw [h ["r", "tvpaint", "1.0.0", "old.txt"]]
  rfl

/-- Witness for C4: re-installing `tvpaint/1.0.0` over a prior install
leaves the new archive's `addon/b.txt` as the only content of the target
directory; the prior `old.txt` is gone. -/
theorem unpack_addon_sync_replaces_target_witness :
    fsGet (unpack_addon_sync fsPrior ["r"] "t" archiveStd sampleInfo).2
      ["r", "tvpaint", "1.0.0", "b.txt"] = some (.text "new")
    ∧ fsGet (unpack_addon_sync fsPrior ["r"] "t" archiveStd sampleInfo).2
      ["r", "tvpaint", "1.0.0", "old.txt"] = none := by
  have h := unpack_addon_sync_replaces_target fsPrior ["r"] "t" archiveStd
    sampleInfo (unpack_addon_sync fsPrior ["r"] "t" archiveStd sampleInfo).2
    (by
      intro p hp
      obtain ⟨s, hs⟩ := (pfx_iff _ _).mp hp
      subst hs
      simp [fsPrior, fsGet])
    (by decide) (by decide) (by decide)
  exact ⟨(h.1 ["b.txt"]).trans rfl, (h.1 ["old.txt"]).trans rfl⟩

end AyonInstaller
